import Mathlib

/-!
Verification of the CGT calculation engine of the `cccgt` repository
(`src/cmd/report/cgt.rs` and `src/cmd/prices.rs`) against its specification.

Monetary amounts are modelled as exact rationals (`ℚ`), mirroring the
exact-decimal arithmetic of the source.  Fallible operations return
`Except`/`Option`; a Rust panic is modelled as a distinct outcome from a
Rust `Err`, so that the error channel of each failure is visible.
-/

/-- Modelled from the spec: `Currency` lives in the repository's
`currencies.rs`, which is not part of the sources provided; per the spec
(§3) a currency is an immutable code plus display metadata and its identity
is by code, so it is modelled as just the code. -/
structure Currency where
  code : String
deriving DecidableEq, Repr

def GBP : Currency := ⟨"GBP"⟩
def BTC : Currency := ⟨"BTC"⟩
def ETH : Currency := ⟨"ETH"⟩
def USD : Currency := ⟨"USD"⟩

/-- Modelled from the spec: `Money` lives in the repository's `money.rs`,
which is not part of the sources provided; per the spec (§3) it is an exact
decimal amount tagged with a currency, with arithmetic between two `Money`
values assuming identical currencies. -/
structure Money where
  amount : ℚ
  currency : Currency
deriving DecidableEq, Repr

def Money.add (a b : Money) : Money := ⟨a.amount + b.amount, a.currency⟩

def Money.sub (a b : Money) : Money := ⟨a.amount - b.amount, a.currency⟩

/-- `zero(cur)` of the source's `money.rs` (missing from the provided
sources): the zero amount of a currency. -/
def zeroM (c : Currency) : Money := ⟨0, c⟩

/-- `chrono::NaiveDate`: a calendar date.  Comparisons below are
lexicographic on (year, month, day), which agrees with chronological order
for valid dates. -/
structure NDate where
  year : Int
  month : Nat
  day : Nat
deriving DecidableEq, Repr

def NDate.lt (a b : NDate) : Prop :=
  a.year < b.year ∨ (a.year = b.year ∧
    (a.month < b.month ∨ (a.month = b.month ∧ a.day < b.day)))

def NDate.le (a b : NDate) : Prop :=
  a.year < b.year ∨ (a.year = b.year ∧
    (a.month < b.month ∨ (a.month = b.month ∧ a.day ≤ b.day)))

instance (a b : NDate) : Decidable (NDate.lt a b) := by
  unfold NDate.lt; infer_instance

instance (a b : NDate) : Decidable (NDate.le a b) := by
  unfold NDate.le; infer_instance

/-- `chrono::NaiveDateTime`: a calendar date plus the second within the
day. -/
structure NDateTime where
  date : NDate
  secs : Nat
deriving DecidableEq, Repr

def NDateTime.lt (a b : NDateTime) : Prop :=
  NDate.lt a.date b.date ∨ (a.date = b.date ∧ a.secs < b.secs)

def NDateTime.le (a b : NDateTime) : Prop :=
  NDate.lt a.date b.date ∨ (a.date = b.date ∧ a.secs ≤ b.secs)

instance (a b : NDateTime) : Decidable (NDateTime.lt a b) := by
  unfold NDateTime.lt; infer_instance

instance (a b : NDateTime) : Decidable (NDateTime.le a b) := by
  unfold NDateTime.le; infer_instance

/-- Day number of a civil date (days since 1970-01-01), the standard civil
calendar arithmetic used to give `Duration::days(30)` its timestamp
meaning. -/
def daysFromCivil (dt : NDate) : Int :=
  let y : Int := if dt.month ≤ 2 then dt.year - 1 else dt.year
  let m : Int := (dt.month : Int)
  let d : Int := (dt.day : Int)
  let era : Int := y.ediv 400
  let yoe : Int := y - era * 400
  let mp : Int := if dt.month > 2 then m - 3 else m + 9
  let doy : Int := (153 * mp + 2).ediv 5 + d - 1
  let doe : Int := yoe * 365 + yoe.ediv 4 - yoe.ediv 100 + doy
  era * 146097 + doe - 719468

/-- Seconds-since-epoch timestamp of a `NaiveDateTime`; `chrono` compares
date-times and adds `Duration`s on this timestamp. -/
def NDateTime.ts (dt : NDateTime) : Int :=
  86400 * daysFromCivil dt.date + (dt.secs : Int)

/-- `Decimal::checked_div` of `rust_decimal`: `none` exactly when the
divisor is zero. -/
def checkedDiv (a b : ℚ) : Option ℚ :=
  if b = 0 then none else some (a / b)

/-- `Pool` of `cgt.rs`: the Section-104 holding for one asset. -/
structure Pool where
  currency : Currency
  total : Money
  costs : Money
deriving DecidableEq, Repr

def Pool.new (c : Currency) : Pool := ⟨c, zeroM c, zeroM GBP⟩

/-- `Pool::buy` of `cgt.rs`. -/
def Pool.buy (p : Pool) (buy costs : Money) : Pool :=
  { p with total := p.total.add buy, costs := p.costs.add costs }

/-- `Pool::sell` of `cgt.rs`.  Selling more than the pool total consumes
the whole cost basis and zeroes the pool; otherwise the consumed cost is
the proportional share `costs * (sell / total)`.  The division
`sell.amount() / self.total.amount()` is `rust_decimal` division, which
panics when the divisor is zero; the panic is modelled as `none`. -/
def Pool.sell (p : Pool) (sellAmt : Money) : Option (Money × Pool) :=
  if p.total.amount < sellAmt.amount then
    some (p.costs, { p with total := zeroM p.currency, costs := zeroM GBP })
  else if p.total.amount = 0 then
    none
  else
    let perc : ℚ := sellAmt.amount / p.total.amount
    let costs : Money := ⟨p.costs.amount * perc, p.costs.currency⟩
    some (costs,
      { p with total := p.total.sub sellAmt, costs := p.costs.sub costs })

/-- `Pool::cost_basis` of `cgt.rs`: `costs.checked_div(total).unwrap_or(0)`. -/
def Pool.cost_basis (p : Pool) : ℚ :=
  (checkedDiv p.costs.amount p.total.amount).getD 0

/-- `uk_tax_year` of `cgt.rs`: a date strictly after 5 April and on or
before 31 December of its calendar year is assigned to the next year. -/
def uk_tax_year (dt : NDateTime) : Int :=
  let date := dt.date
  let year := date.year
  if NDate.lt ⟨year, 4, 5⟩ date ∧ NDate.le date ⟨year, 12, 31⟩ then
    year + 1
  else
    year

/-- C8: `cost_basis()` returns `costs / total` when the total is nonzero
and zero when the total is zero; the division is guarded by
`checked_div`, so no unguarded division by zero is performed. -/
theorem c8_cost_basis_guard (p : Pool) :
    (p.total.amount ≠ 0 → Pool.cost_basis p = p.costs.amount / p.total.amount)
    ∧ (p.total.amount = 0 → Pool.cost_basis p = 0) := by
  constructor <;> intro h <;> simp [Pool.cost_basis, checkedDiv, h]

theorem c8_cost_basis_guard_witness :
    Pool.cost_basis ⟨BTC, ⟨4, BTC⟩, ⟨10, GBP⟩⟩ = 10 / 4
    ∧ Pool.cost_basis ⟨BTC, ⟨0, BTC⟩, ⟨10, GBP⟩⟩ = 0 :=
  ⟨(c8_cost_basis_guard ⟨BTC, ⟨4, BTC⟩, ⟨10, GBP⟩⟩).1 (by norm_num),
   (c8_cost_basis_guard ⟨BTC, ⟨0, BTC⟩, ⟨10, GBP⟩⟩).2 rfl⟩

/-- C2 counterexample: selling `k = 0` from a pool whose total is `T = 0`
satisfies the claim's precondition `0 ≤ k ≤ T` (first two conjuncts), yet
`Pool::sell` returns nothing: the else branch reaches the unguarded
`rust_decimal` division `sell / total` with a zero divisor, which panics
(modelled as `none`) — contradicting the claim's promise that a consumed
cost `C * (k/T)` is returned for every `0 ≤ k ≤ T`. -/
theorem c2_pool_sell_counterexample :
    (0 : ℚ) ≤ (Money.mk 0 BTC).amount
    ∧ (Money.mk 0 BTC).amount ≤ (Pool.mk BTC ⟨0, BTC⟩ ⟨7, GBP⟩).total.amount
    ∧ Pool.sell ⟨BTC, ⟨0, BTC⟩, ⟨7, GBP⟩⟩ ⟨0, BTC⟩ = none := by
  refine ⟨le_refl 0, le_refl 0, ?_⟩
  decide

/-- C2 amended: with `0 ≤ k ≤ T` and `T` nonzero, `Pool::sell(k)` returns
consumed cost `C * (k/T)` and leaves the pool at total `T - k` and costs
`C - C * (k/T)`; with `k > T` it returns the entire `C` and zeroes the
pool; in the remaining case `k = T = 0` the division `k / T` panics. -/
theorem c2_pool_sell (p : Pool) (k : Money) :
    (0 ≤ k.amount → k.amount ≤ p.total.amount → p.total.amount ≠ 0 →
      Pool.sell p k = some (⟨p.costs.amount * (k.amount / p.total.amount), p.costs.currency⟩,
        { p with total := ⟨p.total.amount - k.amount, p.total.currency⟩,
                 costs := ⟨p.costs.amount - p.costs.amount * (k.amount / p.total.amount),
                           p.costs.currency⟩ }))
    ∧ (p.total.amount < k.amount →
      Pool.sell p k = some (p.costs, { p with total := zeroM p.currency, costs := zeroM GBP }))
    ∧ (k.amount = 0 → p.total.amount = 0 → Pool.sell p k = none) := by
  refine ⟨fun _ hle hne => ?_, fun hgt => ?_, fun hk ht => ?_⟩
  · rw [Pool.sell, if_neg (by exact not_lt.mpr hle), if_neg hne]
    rfl
  · rw [Pool.sell, if_pos hgt]
  · rw [Pool.sell, if_neg (by rw [hk, ht]; exact lt_irrefl 0), if_pos ht]

theorem c2_pool_sell_witness :
    Pool.sell ⟨BTC, ⟨10, BTC⟩, ⟨30, GBP⟩⟩ ⟨5, BTC⟩ =
      some (⟨15, GBP⟩, ⟨BTC, ⟨5, BTC⟩, ⟨15, GBP⟩⟩)
    ∧ Pool.sell ⟨BTC, ⟨10, BTC⟩, ⟨30, GBP⟩⟩ ⟨12, BTC⟩ =
      some (⟨30, GBP⟩, ⟨BTC, ⟨0, BTC⟩, ⟨0, GBP⟩⟩) := by
  have h₁ := (c2_pool_sell ⟨BTC, ⟨10, BTC⟩, ⟨30, GBP⟩⟩ ⟨5, BTC⟩).1
    (by norm_num) (by norm_num) (by norm_num)
  have h₂ := (c2_pool_sell ⟨BTC, ⟨10, BTC⟩, ⟨30, GBP⟩⟩ ⟨12, BTC⟩).2.1 (by norm_num)
  refine ⟨?_, ?_⟩
  · rw [h₁]; norm_num [zeroM]
  · rw [h₂]; norm_num [zeroM]

theorem NDate.lt_mk {y1 y2 : Int} {m1 m2 d1 d2 : Nat} :
    NDate.lt ⟨y1, m1, d1⟩ ⟨y2, m2, d2⟩ ↔
      (y1 < y2 ∨ (y1 = y2 ∧ (m1 < m2 ∨ (m1 = m2 ∧ d1 < d2)))) := Iff.rfl

theorem NDate.le_mk {y1 y2 : Int} {m1 m2 d1 d2 : Nat} :
    NDate.le ⟨y1, m1, d1⟩ ⟨y2, m2, d2⟩ ↔
      (y1 < y2 ∨ (y1 = y2 ∧ (m1 < m2 ∨ (m1 = m2 ∧ d1 ≤ d2)))) := Iff.rfl

theorem uk_tax_year_eq (dt : NDateTime) :
    uk_tax_year dt =
      if NDate.lt ⟨dt.date.year, 4, 5⟩ dt.date ∧
         NDate.le dt.date ⟨dt.date.year, 12, 31⟩
      then dt.date.year + 1 else dt.date.year := rfl

/-- C5: the UK tax-year assignment sends a date to its calendar year plus
one exactly when the date is strictly after 5 April, and to its calendar
year otherwise; the additional on-or-before-31-December guard in the code
never changes the result on valid dates; in particular 5 April of year `y`
is assigned to `y` and 6 April of year `y` to `y + 1`. -/
theorem c5_uk_tax_year (y : Int) (m d s : Nat)
    (hm1 : 1 ≤ m) (hm2 : m ≤ 12) (hd1 : 1 ≤ d) (hd2 : d ≤ 31) :
    (uk_tax_year ⟨⟨y, m, d⟩, s⟩ =
      if NDate.lt ⟨y, 4, 5⟩ ⟨y, m, d⟩ then y + 1 else y)
    ∧ uk_tax_year ⟨⟨y, 4, 5⟩, s⟩ = y
    ∧ uk_tax_year ⟨⟨y, 4, 6⟩, s⟩ = y + 1 := by
  have hle : NDate.le ⟨y, m, d⟩ ⟨y, 12, 31⟩ := NDate.le_mk.mpr (by omega)
  refine ⟨?_, ?_, ?_⟩
  · by_cases hlt : NDate.lt ⟨y, 4, 5⟩ ⟨y, m, d⟩
    · rw [uk_tax_year_eq]; dsimp only
      rw [if_pos ⟨hlt, hle⟩, if_pos hlt]
    · rw [uk_tax_year_eq]; dsimp only
      rw [if_neg (fun hc => hlt hc.1), if_neg hlt]
  · rw [uk_tax_year_eq]; dsimp only
    rw [if_neg]
    intro hc
    exact absurd (NDate.lt_mk.mp hc.1) (by omega)
  · rw [uk_tax_year_eq]; dsimp only
    rw [if_pos ⟨NDate.lt_mk.mpr (by omega), NDate.le_mk.mpr (by omega)⟩]

theorem c5_uk_tax_year_witness :
    uk_tax_year ⟨⟨2020, 7, 1⟩, 0⟩ = (if NDate.lt ⟨2020, 4, 5⟩ ⟨2020, 7, 1⟩ then 2021 else 2020)
    ∧ uk_tax_year ⟨⟨2020, 4, 5⟩, 0⟩ = 2020
    ∧ uk_tax_year ⟨⟨2020, 4, 6⟩, 0⟩ = 2021 :=
  c5_uk_tax_year 2020 7 1 0 (by norm_num) (by norm_num) (by norm_num) (by norm_num)

/-- `CurrencyPair` of `prices.rs`.  Equality is the derived structural
equality (`#[derive(Eq, PartialEq)]`), comparing both the base and the
quote currency. -/
structure CurrencyPair where
  base : Currency
  quote : Currency
deriving DecidableEq, Repr

/-- The `Hash` implementation for `CurrencyPair` in `prices.rs` feeds
`base.code` into the hasher twice and never feeds the quote currency; two
values fed identical token streams hash identically, so the hash is
modelled as the stream of hashed tokens. -/
def CurrencyPair.hashTokens (p : CurrencyPair) : List String :=
  [p.base.code, p.base.code]

/-- C9 counterexample: the pairs BTC/GBP and BTC/USD share a base but
differ in quote; they hash identically, but the derived equality compares
the quote currency as well, so they are not equal — contradicting the
claim that two pairs with the same base are equal. -/
theorem c9_currency_pair_counterexample :
    (CurrencyPair.mk BTC GBP ≠ CurrencyPair.mk BTC USD)
    ∧ CurrencyPair.hashTokens (CurrencyPair.mk BTC GBP) =
        CurrencyPair.hashTokens (CurrencyPair.mk BTC USD) := by
  constructor
  · decide
  · rfl

/-- C9 amended: the hash of a `CurrencyPair` depends only on the base
currency (whose code is hashed twice), so two pairs hash identically
exactly when their base codes agree; equality, however, is the derived
structural equality on both fields, so two pairs are equal exactly when
both base and quote agree. -/
theorem c9_currency_pair_hash_eq (p q : CurrencyPair) :
    (CurrencyPair.hashTokens p = CurrencyPair.hashTokens q ↔ p.base.code = q.base.code)
    ∧ (p = q ↔ p.base = q.base ∧ p.quote = q.quote) := by
  constructor
  · simp [CurrencyPair.hashTokens]
  · cases p; cases q; simp

/-- `Price` of `prices.rs`: one historical quote. -/
structure Price where
  pair : CurrencyPair
  date_time : NDateTime
  rate : ℚ
deriving DecidableEq, Repr

/-- `Prices` of `prices.rs`: a map from currency pair to its price
observations, modelled as an association list keyed by the pair's full
(derived) equality, as `HashMap` lookup is. -/
structure Prices where
  prices : List (CurrencyPair × List Price)
deriving DecidableEq, Repr

/-- Association-list lookup, the model of `HashMap::get`. -/
def lookupA {κ α : Type} [DecidableEq κ] : List (κ × α) → κ → Option α
  | [], _ => none
  | (k, v) :: rest, key => if k = key then some v else lookupA rest key

/-- Association-list update-or-append, the model of mutating through
`HashMap::entry(key).or_insert(..)`: an existing key keeps its position,
a new key is appended. -/
def updateA {κ α : Type} [DecidableEq κ] : List (κ × α) → κ → α → List (κ × α)
  | [], key, v => [(key, v)]
  | (k, w) :: rest, key, v =>
    if k = key then (k, v) :: rest else (k, w) :: updateA rest key v

/-- `Prices::get` of `prices.rs`: the first observation of the pair whose
calendar date equals the requested date. -/
def Prices.get (ps : Prices) (pair : CurrencyPair) (at_ : NDate) : Option Price :=
  (lookupA ps.prices pair).bind fun obs =>
    obs.find? fun price => price.date_time.date = at_

inductive TradeKind where
  | Buy
  | Sell
deriving DecidableEq, Repr

/-- `Trade` of the repository's `trades.rs`.  The struct's fields are
fixed by the spec (§3) and by the field accesses in `cgt.rs` and the
importers; `trades.rs` itself is not among the provided sources. -/
structure Trade where
  date_time : NDateTime
  kind : TradeKind
  buy : Money
  sell : Money
  fee : Money
  rate : ℚ
  exchange : Option String
deriving DecidableEq, Repr

/-- Modelled from the spec: `TradeKey` lives in the missing `trades.rs`;
per the spec (§3) it is a value derived from a `Trade` that uniquely
identifies the trade across the run, with trades of identical key treated
as the same acquisition event.  It is modelled as the identifying legs of
the trade. -/
structure TradeKey where
  date_time : NDateTime
  buy : Money
  sell : Money
deriving DecidableEq, Repr

def Trade.key (t : Trade) : TradeKey := ⟨t.date_time, t.buy, t.sell⟩

/-- Modelled from the spec: `Price::convert_to_gbp` lives in the missing
part of `prices.rs`; per the spec (§4.3) a non-GBP leg is converted to GBP
by multiplying its amount by the resolved rate.  The `Result` return type
follows the `?` uses in `cgt.rs`; the spec names no failure condition, so
the conversion always succeeds. -/
def Price.convert_to_gbp (p : Price) (m : Money) (_tradeRate : ℚ) :
    Except String Money :=
  .ok ⟨m.amount * p.rate, GBP⟩

/-- `get_price` of `cgt.rs`: if the trade's quote leg is GBP the trade's
own rate is authoritative; otherwise the (quote, GBP) pair is looked up in
the price index at the trade's calendar date. -/
def get_price (trade : Trade) (prices : Prices) : Option Price :=
  let qb : Currency × Currency :=
    match trade.kind with
    | .Buy => (trade.sell.currency, trade.buy.currency)
    | .Sell => (trade.buy.currency, trade.sell.currency)
  let quote := qb.1
  let base := qb.2
  if quote = GBP then
    some ⟨⟨base, GBP⟩, trade.date_time, trade.rate⟩
  else
    Prices.get prices ⟨quote, GBP⟩ trade.date_time.date

/-- `Disposal` of `cgt.rs`: the computed tax record for one trade. -/
structure Disposal where
  trade : Trade
  tax_year : Int
  buy_value : Money
  sell_value : Money
  fee_value : Money
  price : Price
  allowable_costs : Money
  buy_pool : Option Pool
  sell_pool : Option Pool
deriving DecidableEq, Repr

def Disposal.proceeds (d : Disposal) : Money := d.sell_value

def Disposal.gain (d : Disposal) : Money :=
  (d.sell_value.sub d.allowable_costs).sub d.fee_value

/-- Stable insertion into a sorted list: the new element goes before the
first element it compares `le` to, so elements with equal keys keep their
relative input order. -/
def insertSorted {α : Type} (le : α → α → Bool) (x : α) : List α → List α
  | [] => [x]
  | y :: ys => if le x y then x :: y :: ys else y :: insertSorted le x ys

/-- Stable sort (insertion sort), the model of Rust's stable
`sort_by_key` / `sort_by`: the output is sorted and elements with equal
keys keep their input order, which determines the output uniquely. -/
def sortByB {α : Type} (le : α → α → Bool) (l : List α) : List α :=
  l.foldr (insertSorted le) []

/-- The trade ordering used by `trades.sort_by_key(|t| t.date_time)`. -/
def tradeLeB (a b : Trade) : Bool := decide (NDateTime.le a.date_time b.date_time)

/-- The disposal ordering used by `gains.sort_by(.. date_time.cmp ..)`. -/
def dispLeB (a b : Disposal) : Bool :=
  decide (NDateTime.le a.trade.date_time b.trade.date_time)

/-- `TaxYear` of `cgt.rs`. -/
structure TaxYearRec where
  year : Int
  disposals : List Disposal
deriving DecidableEq, Repr

/-- One step of the grouping loop in `TaxReport::new`:
`tax_years.entry(year).or_insert(TaxYear::new(year)).disposals.push(gain)`. -/
def addDisposal (m : List (Int × TaxYearRec)) (d : Disposal) : List (Int × TaxYearRec) :=
  match m with
  | [] => [(d.tax_year, ⟨d.tax_year, [d]⟩)]
  | (y, ty) :: rest =>
    if y = d.tax_year then (y, ⟨ty.year, ty.disposals ++ [d]⟩) :: rest
    else (y, ty) :: addDisposal rest d

/-- `TaxReport` of `cgt.rs`. -/
structure TaxReport where
  trades : List Trade
  years : List (Int × TaxYearRec)
  pools : List (String × Pool)
deriving DecidableEq, Repr

/-- `TaxReport::new` of `cgt.rs`: group the disposals by their tax year. -/
def TaxReport.new (trades : List Trade) (gains : List Disposal)
    (pools : List (String × Pool)) : TaxReport :=
  ⟨trades, gains.foldl addDisposal [], pools⟩

/-- `Gains` of `cgt.rs`. -/
structure Gains where
  year : Option Int
  gains : List Disposal
deriving DecidableEq, Repr

/-- All disposals of all years, the model of the
`years.iter().flat_map(|(_, y)| y.disposals)` fallback in
`TaxReport::gains`. -/
def allDisposals (years : List (Int × TaxYearRec)) : List Disposal :=
  years.flatMap fun p => p.2.disposals

/-- `TaxReport::gains` of `cgt.rs`: the disposals of the requested year if
that year is present, otherwise (also when no year is requested) the
disposals of all years; sorted ascending by trade date-time. -/
def TaxReport.gains (r : TaxReport) (year : Option Int) : Gains :=
  let base :=
    match year with
    | some y =>
      match lookupA r.years y with
      | some ty => ty.disposals
      | none => allDisposals r.years
    | none => allDisposals r.years
  ⟨year, sortByB dispLeB base⟩

def Gains.total_proceeds (g : Gains) : Money :=
  g.gains.foldl (fun acc d => acc.add d.proceeds) (zeroM GBP)

def Gains.total_allowable_costs (g : Gains) : Money :=
  g.gains.foldl (fun acc d => acc.add d.allowable_costs) (zeroM GBP)

def Gains.total_gain (g : Gains) : Money :=
  g.gains.foldl (fun acc d => acc.add d.gain) (zeroM GBP)

/-- Result channel of a Rust computation that can end in `Ok`, in `Err`
(the `Result` error channel, produced by `?` / `eyre!`), or in a panic
(produced by `expect` or by `rust_decimal` division by zero), which aborts
the process and is not a `Result` value. -/
inductive Outcome (α : Type) where
  | ok (val : α)
  | error (msg : String)
  | panic (msg : String)
deriving DecidableEq, Repr

def Outcome.isOk {α : Type} : Outcome α → Bool
  | .ok _ => true
  | _ => false

def Outcome.isPanic {α : Type} : Outcome α → Bool
  | .panic _ => true
  | _ => false

/-- The message of the `expect` on the per-trade price resolution in
`calculate` (`cgt.rs` line 217). -/
def priceExpectMsg (trade : Trade) : String :=
  "Should have price for buy: " ++ trade.buy.currency.code ++
    " sell: " ++ trade.sell.currency.code

/-- The accumulator threaded through the bed-and-breakfast matching loop
of `calculate`: the remaining-unmatched-buy map (`special_buys`), the
quantity of the disposal still to be sold against the main pool
(`main_pool_sell`), and the accumulated special allowable costs. -/
structure BnbAcc where
  specialBuys : List (TradeKey × Money)
  mainPoolSell : Money
  specialCosts : Money
deriving DecidableEq, Repr

/-- `special_buys.entry(key).or_insert(full)`: referencing a key lazily
initializes it to the trade's full buy amount. -/
def orInsert (sb : List (TradeKey × Money)) (key : TradeKey) (full : Money) :
    List (TradeKey × Money) :=
  match lookupA sb key with
  | some _ => sb
  | none => sb ++ [(key, full)]

/-- One iteration of the `for future_buy in &special_rules_buy` loop in
`calculate` (`cgt.rs` lines 253-283), translated from the source: the
candidate's remaining unmatched amount is lazily initialized to its full
buy amount; if it is positive, the matched amount is the remaining amount
when that fits in what the disposal still needs and the whole remaining
need otherwise; the map entry and the outstanding quantity are reduced,
and the matched portion's cost is computed from the candidate's own
resolved price and rate. -/
def bnbStep (prices : Prices) (acc : BnbAcc) (fb : Trade) :
    Except String BnbAcc :=
  let sb1 := orInsert acc.specialBuys fb.key fb.buy
  let remaining := (lookupA sb1 fb.key).getD fb.buy
  if 0 < remaining.amount then
    let pair : Money × Money :=
      if remaining.amount ≤ acc.mainPoolSell.amount then
        (acc.mainPoolSell.sub remaining, remaining)
      else
        (zeroM acc.mainPoolSell.currency, acc.mainPoolSell)
    let sell := pair.1
    let specialBuyAmt := pair.2
    let sb2 := updateA sb1 fb.key (remaining.sub specialBuyAmt)
    match get_price fb prices with
    | none => .error ("Failed to find price for B and B trade")
    | some buyPrice =>
      match buyPrice.convert_to_gbp specialBuyAmt fb.rate with
      | .error e => .error e
      | .ok costs =>
        .ok ⟨sb2, sell, acc.specialCosts.add costs⟩
  else
    .ok ⟨sb1, acc.mainPoolSell, acc.specialCosts⟩

/-- Early-exit fold over a list with an `Except`-valued step. -/
def foldE {α β : Type} (f : β → α → Except String β) : β → List α → Except String β
  | b, [] => .ok b
  | b, a :: rest =>
    match f b a with
    | .error e => .error e
    | .ok b2 => foldE f b2 rest

/-- The candidate filter of the bed-and-breakfast scan (`cgt.rs` lines
240-248): trades acquiring the disposed asset, dated on or after the
disposal's calendar date and strictly before the disposal's time plus 30
days. -/
def bnbCandidates (all : List Trade) (trade : Trade) : List Trade :=
  all.filter fun t =>
    decide (t.buy.currency = trade.sell.currency) &&
    decide (NDate.le trade.date_time.date t.date_time.date) &&
    decide (t.date_time.ts < trade.date_time.ts + 30 * 86400)

/-- The whole bed-and-breakfast pass of `calculate` for one disposal:
fold `bnbStep` over the candidates in the order of the collection scan,
starting from the disposal's full sell amount and zero special costs. -/
def bnbPass (prices : Prices) (all : List Trade) (trade : Trade)
    (sb : List (TradeKey × Money)) : Except String BnbAcc :=
  foldE (bnbStep prices) ⟨sb, trade.sell, zeroM GBP⟩ (bnbCandidates all trade)

/-- The acquisition branch of `calculate` (`cgt.rs` lines 226-235): the
amount credited to the pool is the remaining unmatched quantity recorded
for the trade's key, defaulting to the full buy amount, and its GBP cost
is converted at the trade's own resolved price. -/
def buyBranch (trade : Trade) (price : Price)
    (pools : List (String × Pool)) (sb : List (TradeKey × Money)) :
    Except String (List (String × Pool) × Option Pool) :=
  let buyAmount := (lookupA sb trade.key).getD trade.buy
  match price.convert_to_gbp buyAmount trade.rate with
  | .error e => .error e
  | .ok costs =>
    let code := trade.buy.currency.code
    let pool0 := (lookupA pools code).getD (Pool.new trade.buy.currency)
    let pool1 := pool0.buy buyAmount costs
    .ok (updateA pools code pool1, some pool1)

/-- The disposal branch of `calculate` (`cgt.rs` lines 237-291): run the
bed-and-breakfast pass, then sell the unmatched remainder against the main
pool; the disposal's allowable costs are the main-pool costs plus the
special allowable costs. -/
def sellBranch (prices : Prices) (all : List Trade) (trade : Trade)
    (pools : List (String × Pool)) (sb : List (TradeKey × Money)) :
    Outcome (List (String × Pool) × List (TradeKey × Money) × Option Pool × Money) :=
  match bnbPass prices all trade sb with
  | .error e => .error e
  | .ok acc =>
    let code := trade.sell.currency.code
    let pool0 := (lookupA pools code).getD (Pool.new trade.sell.currency)
    match pool0.sell acc.mainPoolSell with
    | none => .panic "Division by zero"
    | some (mainPoolCosts, pool1) =>
      .ok (updateA pools code pool1, acc.specialBuys, some pool1,
        mainPoolCosts.add acc.specialCosts)

/-- The state threaded through `calculate`'s main loop. -/
structure CalcState where
  pools : List (String × Pool)
  specialBuys : List (TradeKey × Money)
  disposals : List Disposal
deriving DecidableEq, Repr

/-- The GBP value of one leg of the trade (`cgt.rs` lines 293-309): a GBP
leg is used as-is, any other leg is converted at the resolved price. -/
def legValue (price : Price) (m : Money) (rate : ℚ) : Except String Money :=
  if m.currency = GBP then .ok m else price.convert_to_gbp m rate

/-- The body of `calculate`'s `for trade in &trades` loop, translated from
`cgt.rs` lines 216-325: resolve the price (panicking if missing), apply
the acquisition branch when the buy leg is not GBP, apply the disposal
branch when the sell leg is not GBP, value the three legs in GBP, and
record the `Disposal`. -/
def processTrade (prices : Prices) (all : List Trade) (st : CalcState)
    (trade : Trade) : Outcome CalcState :=
  match get_price trade prices with
  | none => .panic (priceExpectMsg trade)
  | some price =>
    let step1 : Except String (List (String × Pool) × Option Pool) :=
      if trade.buy.currency = GBP then .ok (st.pools, none)
      else buyBranch trade price st.pools st.specialBuys
    match step1 with
    | .error e => .error e
    | .ok (pools1, buyPool) =>
      let step2 : Outcome (List (String × Pool) × List (TradeKey × Money) ×
          Option Pool × Money) :=
        if trade.sell.currency = GBP then
          .ok (pools1, st.specialBuys, none, zeroM GBP)
        else sellBranch prices all trade pools1 st.specialBuys
      match step2 with
      | .error e => .error e
      | .panic e => .panic e
      | .ok (pools2, sb2, sellPool, allowableCosts) =>
        match legValue price trade.sell trade.rate with
        | .error e => .error e
        | .ok sellValue =>
          match legValue price trade.buy trade.rate with
          | .error e => .error e
          | .ok buyValue =>
            match legValue price trade.fee trade.rate with
            | .error e => .error e
            | .ok feeValue =>
              .ok ⟨pools2, sb2,
                st.disposals ++ [⟨trade, uk_tax_year trade.date_time, buyValue,
                  sellValue, feeValue, price, allowableCosts, buyPool, sellPool⟩]⟩

/-- `calculate`'s main loop over the time-sorted trades. -/
def processTrades (prices : Prices) (all : List Trade) :
    CalcState → List Trade → Outcome CalcState
  | st, [] => .ok st
  | st, t :: rest =>
    match processTrade prices all st t with
    | .ok st2 => processTrades prices all st2 rest
    | .error e => .error e
    | .panic e => .panic e

/-- `calculate` of `cgt.rs`: sort the trades by timestamp, stream them
through the engine, and aggregate the recorded disposals into a
`TaxReport`. -/
def calculate (trades : List Trade) (prices : Prices) : Outcome TaxReport :=
  let sorted := sortByB tradeLeB trades
  match processTrades prices sorted ⟨[], [], []⟩ sorted with
  | .ok st => .ok (TaxReport.new sorted st.disposals st.pools)
  | .error e => .error e
  | .panic e => .panic e

/-- An empty price index (`Prices::default()`), sufficient for GBP-quoted
trades whose own rate is authoritative. -/
def pricesEmpty : Prices := ⟨[]⟩

/-- The report of a calculation run, when the run succeeded. -/
def reportOf (o : Outcome TaxReport) : Option TaxReport :=
  match o with
  | .ok r => some r
  | _ => none

/-- Same-day acquisition: buy 10 BTC for 1000 GBP at 09:00. -/
def sameDayBuy : Trade :=
  ⟨⟨⟨2018, 6, 1⟩, 9 * 3600⟩, .Buy, ⟨10, BTC⟩, ⟨1000, GBP⟩, ⟨0, GBP⟩, 100, none⟩

/-- Same-day disposal: sell those 10 BTC for 1500 GBP at 18:00. -/
def sameDaySell : Trade :=
  ⟨⟨⟨2018, 6, 1⟩, 18 * 3600⟩, .Sell, ⟨1500, GBP⟩, ⟨10, BTC⟩, ⟨0, GBP⟩, 150, none⟩

/-- C10: an acquisition earlier on the same calendar day as a disposal is
processed as a buy first (full quantity and cost added to the pool) and is
nevertheless a bed-and-breakfast candidate of the disposal (the candidate
filter's lower bound is calendar-date granular), so the disposal's
special pass matches the same 10 BTC again: the final pool still holds
the full 10 BTC at the full 1000 GBP cost, while the disposal's allowable
costs also contain the same 1000 GBP — the acquisition's cost is counted
twice. -/
theorem c10_same_day_double_count :
    bnbCandidates (sortByB tradeLeB [sameDayBuy, sameDaySell]) sameDaySell = [sameDayBuy]
    ∧ bnbPass pricesEmpty (sortByB tradeLeB [sameDayBuy, sameDaySell]) sameDaySell [] =
        .ok ⟨[(sameDayBuy.key, ⟨0, BTC⟩)], ⟨0, BTC⟩, ⟨1000, GBP⟩⟩
    ∧ ((reportOf (calculate [sameDayBuy, sameDaySell] pricesEmpty)).bind
        fun r => lookupA r.pools "BTC") = some ⟨BTC, ⟨10, BTC⟩, ⟨1000, GBP⟩⟩
    ∧ ((reportOf (calculate [sameDayBuy, sameDaySell] pricesEmpty)).bind
        fun r => ((r.gains none).gains.getLast?.map (·.allowable_costs))) =
        some ⟨1000, GBP⟩ := by
  refine ⟨?_, ?_, ?_, ?_⟩ <;>
    norm_num +decide [calculate, sortByB, insertSorted, tradeLeB, processTrades, processTrade,
    get_price, Prices.get, buyBranch, sellBranch, bnbPass, bnbCandidates, bnbStep, foldE,
    orInsert, lookupA, updateA, Pool.new, Pool.buy, Pool.sell, legValue, Price.convert_to_gbp,
    Money.add, Money.sub, zeroM, uk_tax_year, TaxReport.new, addDisposal, Trade.key,
    reportOf, sameDayBuy, sameDaySell, pricesEmpty, NDate.lt, NDate.le, NDateTime.le,
    NDateTime.lt, NDateTime.ts, daysFromCivil, GBP, BTC, ETH, USD, TaxReport.gains,
    allDisposals, dispLeB, priceExpectMsg, Disposal.proceeds, Disposal.gain]

/-- A crypto-to-crypto trade (buy 1 BTC for 10 ETH): its quote currency is
not GBP, so price resolution needs the index. -/
def c6Trade : Trade :=
  ⟨⟨⟨2018, 1, 1⟩, 0⟩, .Buy, ⟨1, BTC⟩, ⟨10, ETH⟩, ⟨0, GBP⟩, 15, none⟩

/-- C6 counterexample: with an empty price index the price resolution for
this trade fails, and `calculate` aborts through the `expect` panic — not
through its `Result` return value — contradicting the claim that the
failure is surfaced through the `Result` channel rather than any other
channel. -/
theorem c6_price_failure_counterexample :
    calculate [c6Trade] pricesEmpty = .panic (priceExpectMsg c6Trade) := by
  norm_num +decide [calculate, sortByB, insertSorted, tradeLeB, processTrades, processTrade,
    get_price, Prices.get, buyBranch, sellBranch, bnbPass, bnbCandidates, bnbStep, foldE,
    orInsert, lookupA, updateA, Pool.new, Pool.buy, Pool.sell, legValue, Price.convert_to_gbp,
    Money.add, Money.sub, zeroM, uk_tax_year, TaxReport.new, addDisposal, Trade.key,
    reportOf, sameDayBuy, sameDaySell, pricesEmpty, NDate.lt, NDate.le, NDateTime.le,
    NDateTime.lt, NDateTime.ts, daysFromCivil, GBP, BTC, ETH, USD, TaxReport.gains,
    allDisposals, dispLeB, priceExpectMsg, c6Trade, Disposal.proceeds, Disposal.gain]

/-- `processTrade` panics outright when the trade's price cannot be
resolved (`expect` in `cgt.rs` line 217). -/
theorem processTrade_price_none (prices : Prices) (all : List Trade)
    (st : CalcState) (t : Trade) (h : get_price t prices = none) :
    processTrade prices all st t = .panic (priceExpectMsg t) := by
  rw [processTrade, h]

/-- A successful `processTrade` implies the trade's price resolved. -/
theorem processTrade_ok_price (prices : Prices) (all : List Trade)
    (st st2 : CalcState) (t : Trade)
    (h : processTrade prices all st t = .ok st2) :
    (get_price t prices).isSome := by
  cases hp : get_price t prices with
  | none => rw [processTrade_price_none prices all st t hp] at h; cases h
  | some _ => rfl

theorem processTrades_not_ok (prices : Prices) (all : List Trade) :
    ∀ (l : List Trade) (st : CalcState) (t : Trade), t ∈ l →
      get_price t prices = none →
      (processTrades prices all st l).isOk = false := by
  intro l
  induction l with
  | nil => intro st t ht; cases ht
  | cons h rest ih =>
    intro st t ht hp
    rw [processTrades]
    cases hstep : processTrade prices all st h with
    | ok st2 =>
      rcases List.mem_cons.mp ht with rfl | htl
      · have := processTrade_ok_price prices all st st2 t hstep
        rw [hp] at this; cases this
      · exact ih st2 t htl hp
    | error e => rfl
    | panic e => rfl

theorem insertSorted_perm {α : Type} (le : α → α → Bool) (x : α) :
    ∀ l : List α, (insertSorted le x l).Perm (x :: l) := by
  intro l
  induction l with
  | nil => exact List.Perm.refl _
  | cons y ys ih =>
    rw [insertSorted]
    by_cases h : le x y = true
    · rw [if_pos h]
    · rw [if_neg h]
      exact (List.Perm.cons y ih).trans (List.Perm.swap x y ys)

theorem sortByB_perm {α : Type} (le : α → α → Bool) :
    ∀ l : List α, (sortByB le l).Perm l := by
  intro l
  induction l with
  | nil => exact List.Perm.refl _
  | cons x xs ih =>
    exact (insertSorted_perm le x (sortByB le xs)).trans (List.Perm.cons x ih)

/-- C6 amended: if price resolution fails for any trade in the input,
`calculate` produces no report at all — the run aborts, via the `expect`
panic for the per-trade resolution (or via the `Result` error for a
bed-and-breakfast candidate's missing price); it never returns `Ok`. -/
theorem c6_price_failure_aborts (trades : List Trade) (prices : Prices)
    (t : Trade) (ht : t ∈ trades) (hp : get_price t prices = none) :
    (calculate trades prices).isOk = false := by
  have hmem : t ∈ sortByB tradeLeB trades :=
    ((sortByB_perm tradeLeB trades).mem_iff).mpr ht
  have hnotok := processTrades_not_ok prices (sortByB tradeLeB trades)
    (sortByB tradeLeB trades) ⟨[], [], []⟩ t hmem hp
  rw [calculate]
  cases hrun : processTrades prices (sortByB tradeLeB trades) ⟨[], [], []⟩
      (sortByB tradeLeB trades) with
  | ok st => rw [hrun] at hnotok; cases hnotok
  | error e => rfl
  | panic e => rfl

theorem c6_price_failure_aborts_witness :
    (calculate [c6Trade] pricesEmpty).isOk = false :=
  c6_price_failure_aborts [c6Trade] pricesEmpty c6Trade (by decide) (by decide)

theorem lookupA_updateA_self {κ α : Type} [DecidableEq κ]
    (l : List (κ × α)) (k : κ) (v : α) :
    lookupA (updateA l k v) k = some v := by
  induction l with
  | nil => simp [updateA, lookupA]
  | cons p rest ih =>
    by_cases h : p.1 = k
    · simp [updateA, h, lookupA]
    · simp only [updateA]
      rw [if_neg h]
      simp only [lookupA]
      rw [if_neg h]
      exact ih

/-- C3: for an acquisition processed as a buy into the pool ledger, the
quantity credited to the pool is the remaining unmatched quantity recorded
for the trade's key in the side map — defaulting to the trade's full buy
amount when no disposal's matching pass touched it — and the GBP cost
credited is that quantity converted at the trade's own resolved price; the
pool's total and costs grow by exactly these amounts. -/
theorem c3_buy_adds_remaining (trade : Trade) (price : Price)
    (pools : List (String × Pool)) (sb : List (TradeKey × Money))
    (pools2 : List (String × Pool)) (obp : Option Pool)
    (h : buyBranch trade price pools sb = .ok (pools2, obp)) :
    ∃ pool1,
      lookupA pools2 trade.buy.currency.code = some pool1
      ∧ obp = some pool1
      ∧ pool1.total.amount =
          ((lookupA pools trade.buy.currency.code).getD
            (Pool.new trade.buy.currency)).total.amount +
          ((lookupA sb trade.key).getD trade.buy).amount
      ∧ pool1.costs.amount =
          ((lookupA pools trade.buy.currency.code).getD
            (Pool.new trade.buy.currency)).costs.amount +
          ((lookupA sb trade.key).getD trade.buy).amount * price.rate := by
  rw [buyBranch] at h
  simp only [Price.convert_to_gbp] at h
  injection h with h1
  injection h1 with hpools hobp
  refine ⟨((lookupA pools trade.buy.currency.code).getD (Pool.new trade.buy.currency)).buy
    ((lookupA sb trade.key).getD trade.buy)
    ⟨((lookupA sb trade.key).getD trade.buy).amount * price.rate, GBP⟩, ?_, ?_, ?_, ?_⟩
  · rw [← hpools]; exact lookupA_updateA_self _ _ _
  · rw [← hobp]
  · simp [Pool.buy, Money.add]
  · simp [Pool.buy, Money.add]

theorem c3_buy_adds_remaining_witness :
    ∃ pool1,
      lookupA (updateA [] sameDayBuy.buy.currency.code
          ((Pool.new BTC).buy ⟨10, BTC⟩ ⟨1000, GBP⟩))
        sameDayBuy.buy.currency.code = some pool1
      ∧ (some ((Pool.new BTC).buy ⟨10, BTC⟩ ⟨1000, GBP⟩) : Option Pool) = some pool1
      ∧ pool1.total.amount =
          ((lookupA ([] : List (String × Pool)) sameDayBuy.buy.currency.code).getD
            (Pool.new sameDayBuy.buy.currency)).total.amount +
          ((lookupA ([] : List (TradeKey × Money)) sameDayBuy.key).getD sameDayBuy.buy).amount
      ∧ pool1.costs.amount =
          ((lookupA ([] : List (String × Pool)) sameDayBuy.buy.currency.code).getD
            (Pool.new sameDayBuy.buy.currency)).costs.amount +
          ((lookupA ([] : List (TradeKey × Money)) sameDayBuy.key).getD sameDayBuy.buy).amount *
            (Price.mk ⟨BTC, GBP⟩ sameDayBuy.date_time 100).rate :=
  c3_buy_adds_remaining sameDayBuy ⟨⟨BTC, GBP⟩, sameDayBuy.date_time, 100⟩ [] []
    (updateA [] sameDayBuy.buy.currency.code ((Pool.new BTC).buy ⟨10, BTC⟩ ⟨1000, GBP⟩))
    (some ((Pool.new BTC).buy ⟨10, BTC⟩ ⟨1000, GBP⟩))
    (by norm_num [buyBranch, Price.convert_to_gbp, lookupA, sameDayBuy, Pool.new, Pool.buy,
      Money.add, zeroM, Trade.key, BTC, GBP])

theorem lookupA_append {κ α : Type} [DecidableEq κ] (l1 l2 : List (κ × α)) (k : κ) :
    lookupA (l1 ++ l2) k =
      match lookupA l1 k with
      | some v => some v
      | none => lookupA l2 k := by
  induction l1 with
  | nil => simp [lookupA]
  | cons p rest ih =>
    by_cases h : p.1 = k
    · simp [lookupA, h]
    · simp only [List.cons_append, lookupA]
      rw [if_neg h, if_neg h]
      exact ih

theorem lookupA_orInsert (sb : List (TradeKey × Money)) (k : TradeKey) (full : Money) :
    lookupA (orInsert sb k full) k = some ((lookupA sb k).getD full) := by
  rw [orInsert]
  cases h : lookupA sb k with
  | some v => simp [h]
  | none => rw [lookupA_append, h]; simp [lookupA]

theorem lookupA_updateA_ne {κ α : Type} [DecidableEq κ]
    (l : List (κ × α)) (k0 k : κ) (v : α) (h : k0 ≠ k) :
    lookupA (updateA l k0 v) k = lookupA l k := by
  induction l with
  | nil => simp [updateA, lookupA, h]
  | cons p rest ih =>
    by_cases hp : p.1 = k0
    · simp only [updateA]
      rw [if_pos hp]
      simp only [lookupA]
      rw [if_neg (hp ▸ h), if_neg (hp ▸ h)]
    · simp only [updateA]
      rw [if_neg hp]
      simp only [lookupA]
      by_cases hk : p.1 = k
      · rw [if_pos hk, if_pos hk]
      · rw [if_neg hk, if_neg hk]
        exact ih

/-- The bed-and-breakfast matching step as the claim states it: the
candidate's remaining unmatched amount is lazily initialized to its full
buy amount; for a candidate with positive remaining amount the matched
quantity is `min(remaining unmatched buy quantity, disposal quantity still
needing a match)`, both are reduced by that amount, and the matched
portion's allowable cost is computed with the candidate acquisition's own
resolved price and rate. -/
def bnbStepSpec (prices : Prices) (acc : BnbAcc) (fb : Trade) :
    Except String BnbAcc :=
  let sb1 := orInsert acc.specialBuys fb.key fb.buy
  let remaining := (lookupA sb1 fb.key).getD fb.buy
  if 0 < remaining.amount then
    let matched : ℚ := min remaining.amount acc.mainPoolSell.amount
    let sb2 := updateA sb1 fb.key ⟨remaining.amount - matched, remaining.currency⟩
    match get_price fb prices with
    | none => .error ("Failed to find price for B and B trade")
    | some buyPrice =>
      match buyPrice.convert_to_gbp ⟨matched, fb.buy.currency⟩ fb.rate with
      | .error e => .error e
      | .ok costs =>
        .ok ⟨sb2, ⟨acc.mainPoolSell.amount - matched, acc.mainPoolSell.currency⟩,
          acc.specialCosts.add costs⟩
  else
    .ok ⟨sb1, acc.mainPoolSell, acc.specialCosts⟩

theorem bnbStep_eq_spec (prices : Prices) (acc : BnbAcc) (fb : Trade) :
    bnbStep prices acc fb = bnbStepSpec prices acc fb := by
  have hrem := lookupA_orInsert acc.specialBuys fb.key fb.buy
  rw [bnbStep, bnbStepSpec, hrem]
  simp only [Option.getD_some]
  set r0 := (lookupA acc.specialBuys fb.key).getD fb.buy with hr0
  by_cases h0 : 0 < r0.amount
  · rw [if_pos h0, if_pos h0]
    by_cases hle : r0.amount ≤ acc.mainPoolSell.amount
    · rw [if_pos hle, min_eq_left hle]
      cases hg : get_price fb prices with
      | none => rfl
      | some buyPrice => simp only [Price.convert_to_gbp, Money.sub]
    · rw [if_neg hle, min_eq_right (le_of_lt (lt_of_not_le hle))]
      cases hg : get_price fb prices with
      | none => rfl
      | some buyPrice => simp only [Price.convert_to_gbp, Money.sub, zeroM, sub_self]
  · rw [if_neg h0, if_neg h0]

theorem foldE_congr {α β : Type} (f g : β → α → Except String β)
    (h : ∀ b a, f b a = g b a) : ∀ (l : List α) (b : β), foldE f b l = foldE g b l := by
  intro l
  induction l with
  | nil => intro b; rfl
  | cons a rest ih =>
    intro b
    rw [foldE, foldE, h b a]
    cases g b a with
    | error e => rfl
    | ok b2 => exact ih b2

/-- C1: the bed-and-breakfast pass of a disposal of a non-GBP asset.
First conjunct: the candidates are exactly the trades of the full set
acquiring the disposed asset, dated on or after the disposal's calendar
date and with timestamp strictly before the disposal time plus 30 days;
they are visited in the order of the collection scan.  Second and third
conjuncts: each iteration — and hence the whole pass — agrees with the
spec-side step that matches `min(remaining unmatched buy quantity,
disposal quantity still needing a match)`, reduces both by that amount,
and prices the matched portion with the acquiring trade's own resolved
price and rate, accumulating the cost into the special allowable costs.
Fourth conjunct: the disposal branch sells only the remainder left by the
pass against the main pool and reports allowable costs = main-pool costs
plus the accumulated special costs. -/
theorem c1_bnb_matching :
    (∀ (all : List Trade) (trade t : Trade),
        t ∈ bnbCandidates all trade ↔
          t ∈ all ∧ t.buy.currency = trade.sell.currency ∧
          NDate.le trade.date_time.date t.date_time.date ∧
          t.date_time.ts < trade.date_time.ts + 30 * 86400)
    ∧ (∀ (prices : Prices) (acc : BnbAcc) (fb : Trade),
        bnbStep prices acc fb = bnbStepSpec prices acc fb)
    ∧ (∀ (prices : Prices) (all : List Trade) (trade : Trade)
        (sb : List (TradeKey × Money)),
        bnbPass prices all trade sb =
          foldE (bnbStepSpec prices) ⟨sb, trade.sell, zeroM GBP⟩ (bnbCandidates all trade))
    ∧ (∀ (prices : Prices) (all : List Trade) (trade : Trade)
        (pools : List (String × Pool)) (sb : List (TradeKey × Money))
        (out : List (String × Pool) × List (TradeKey × Money) × Option Pool × Money),
        sellBranch prices all trade pools sb = .ok out →
        ∃ acc mainPoolCosts pool1,
          bnbPass prices all trade sb = .ok acc
          ∧ Pool.sell ((lookupA pools trade.sell.currency.code).getD
              (Pool.new trade.sell.currency)) acc.mainPoolSell = some (mainPoolCosts, pool1)
          ∧ out = (updateA pools trade.sell.currency.code pool1, acc.specialBuys,
              some pool1, mainPoolCosts.add acc.specialCosts)) := by
  refine ⟨?_, ?_, ?_, ?_⟩
  · intro all trade t
    simp [bnbCandidates, List.mem_filter, and_assoc]
  · exact bnbStep_eq_spec
  · intro prices all trade sb
    rw [bnbPass]
    exact foldE_congr _ _ (bnbStep_eq_spec prices) _ _
  · intro prices all trade pools sb out h
    rw [sellBranch] at h
    cases hpass : bnbPass prices all trade sb with
    | error e => rw [hpass] at h; cases h
    | ok acc =>
      rw [hpass] at h
      simp only at h
      cases hsell : Pool.sell ((lookupA pools trade.sell.currency.code).getD
          (Pool.new trade.sell.currency)) acc.mainPoolSell with
      | none => rw [hsell] at h; cases h
      | some pr =>
        rw [hsell] at h
        refine ⟨acc, pr.1, pr.2, rfl, by rw [hsell], ?_⟩
        injection h with h2
        rw [← h2]

theorem c1_bnb_matching_witness :
    (sameDayBuy ∈ bnbCandidates [sameDayBuy, sameDaySell] sameDaySell ↔
      sameDayBuy ∈ [sameDayBuy, sameDaySell] ∧
      sameDayBuy.buy.currency = sameDaySell.sell.currency ∧
      NDate.le sameDaySell.date_time.date sameDayBuy.date_time.date ∧
      sameDayBuy.date_time.ts < sameDaySell.date_time.ts + 30 * 86400)
    ∧ bnbStep pricesEmpty ⟨[], ⟨10, BTC⟩, ⟨0, GBP⟩⟩ sameDayBuy =
        bnbStepSpec pricesEmpty ⟨[], ⟨10, BTC⟩, ⟨0, GBP⟩⟩ sameDayBuy
    ∧ bnbPass pricesEmpty [sameDayBuy] sameDaySell [] =
        foldE (bnbStepSpec pricesEmpty) ⟨[], sameDaySell.sell, zeroM GBP⟩
          (bnbCandidates [sameDayBuy] sameDaySell)
    ∧ ∃ acc mainPoolCosts pool1,
        bnbPass pricesEmpty [] sameDaySell [] = .ok acc
        ∧ Pool.sell ((lookupA ([] : List (String × Pool))
              sameDaySell.sell.currency.code).getD
            (Pool.new sameDaySell.sell.currency)) acc.mainPoolSell =
            some (mainPoolCosts, pool1)
        ∧ (updateA [] sameDaySell.sell.currency.code
              (Pool.mk BTC (zeroM BTC) (zeroM GBP)),
            ([] : List (TradeKey × Money)),
            some (Pool.mk BTC (zeroM BTC) (zeroM GBP)),
            Money.add (zeroM GBP) (zeroM GBP)) =
            (updateA [] sameDaySell.sell.currency.code pool1, acc.specialBuys,
              some pool1, mainPoolCosts.add acc.specialCosts) :=
  ⟨c1_bnb_matching.1 [sameDayBuy, sameDaySell] sameDaySell sameDayBuy,
   c1_bnb_matching.2.1 pricesEmpty ⟨[], ⟨10, BTC⟩, ⟨0, GBP⟩⟩ sameDayBuy,
   c1_bnb_matching.2.2.1 pricesEmpty [sameDayBuy] sameDaySell [],
   c1_bnb_matching.2.2.2 pricesEmpty [] sameDaySell [] []
     (updateA [] sameDaySell.sell.currency.code (Pool.mk BTC (zeroM BTC) (zeroM GBP)),
       [], some (Pool.mk BTC (zeroM BTC) (zeroM GBP)),
       Money.add (zeroM GBP) (zeroM GBP))
     rfl⟩

theorem NDateTime.le_total (a b : NDateTime) : NDateTime.le a b ∨ NDateTime.le b a := by
  obtain ⟨⟨y1, m1, d1⟩, s1⟩ := a
  obtain ⟨⟨y2, m2, d2⟩, s2⟩ := b
  simp only [NDateTime.le, NDate.lt, NDate.mk.injEq]
  omega

theorem NDateTime.le_trans (a b c : NDateTime) :
    NDateTime.le a b → NDateTime.le b c → NDateTime.le a c := by
  obtain ⟨⟨y1, m1, d1⟩, s1⟩ := a
  obtain ⟨⟨y2, m2, d2⟩, s2⟩ := b
  obtain ⟨⟨y3, m3, d3⟩, s3⟩ := c
  simp only [NDateTime.le, NDate.lt, NDate.mk.injEq]
  omega

theorem NDateTime.le_antisymm (a b : NDateTime) :
    NDateTime.le a b → NDateTime.le b a → a = b := by
  obtain ⟨⟨y1, m1, d1⟩, s1⟩ := a
  obtain ⟨⟨y2, m2, d2⟩, s2⟩ := b
  simp only [NDateTime.le, NDate.lt, NDate.mk.injEq, NDateTime.mk.injEq]
  omega

theorem tradeLeB_total (a b : Trade) : tradeLeB a b = true ∨ tradeLeB b a = true := by
  simp only [tradeLeB, decide_eq_true_eq]
  exact NDateTime.le_total a.date_time b.date_time

theorem tradeLeB_trans (a b c : Trade) :
    tradeLeB a b = true → tradeLeB b c = true → tradeLeB a c = true := by
  simp only [tradeLeB, decide_eq_true_eq]
  exact NDateTime.le_trans a.date_time b.date_time c.date_time

theorem tradeLeB_key_antisymm (a b : Trade) :
    tradeLeB a b = true → tradeLeB b a = true → a.date_time = b.date_time := by
  simp only [tradeLeB, decide_eq_true_eq]
  exact NDateTime.le_antisymm a.date_time b.date_time

theorem insertSorted_pairwise {α : Type} (le : α → α → Bool)
    (htot : ∀ a b, le a b = true ∨ le b a = true)
    (htrans : ∀ a b c, le a b = true → le b c = true → le a c = true)
    (x : α) : ∀ l : List α, l.Pairwise (fun a b => le a b = true) →
      (insertSorted le x l).Pairwise (fun a b => le a b = true) := by
  intro l
  induction l with
  | nil => intro _; simp [insertSorted]
  | cons y ys ih =>
    intro hl
    obtain ⟨hy, hys⟩ := List.pairwise_cons.mp hl
    rw [insertSorted]
    by_cases hxy : le x y = true
    · rw [if_pos hxy]
      refine List.Pairwise.cons ?_ hl
      intro z hz
      rcases List.mem_cons.mp hz with rfl | hz2
      · exact hxy
      · exact htrans x y z hxy (hy z hz2)
    · rw [if_neg hxy]
      refine List.Pairwise.cons ?_ (ih hys)
      intro z hz
      have hz2 : z ∈ x :: ys := (insertSorted_perm le x ys).subset hz
      rcases List.mem_cons.mp hz2 with rfl | hz3
      · rcases htot z y with h | h
        · exact absurd h hxy
        · exact h
      · exact hy z hz3

theorem sortByB_pairwise {α : Type} (le : α → α → Bool)
    (htot : ∀ a b, le a b = true ∨ le b a = true)
    (htrans : ∀ a b c, le a b = true → le b c = true → le a c = true)
    (l : List α) : (sortByB le l).Pairwise (fun a b => le a b = true) := by
  induction l with
  | nil => simp [sortByB]
  | cons x xs ih => exact insertSorted_pairwise le htot htrans x (sortByB le xs) ih

theorem sorted_perm_eq_of_nodup_keys {α κ : Type} [DecidableEq κ]
    (le : α → α → Bool) (key : α → κ)
    (anti : ∀ a b, le a b = true → le b a = true → key a = key b) :
    ∀ l1 l2 : List α, l1.Perm l2 → l1.Pairwise (fun a b => le a b = true) →
      l2.Pairwise (fun a b => le a b = true) → (l1.map key).Nodup → l1 = l2 := by
  intro l1
  induction l1 with
  | nil =>
    intro l2 hp _ _ _
    exact (hp.symm.eq_nil).symm
  | cons a t1 ih =>
    intro l2 hp hs1 hs2 hnd
    cases l2 with
    | nil => exact absurd hp.eq_nil (by simp)
    | cons b t2 =>
      have hab : a = b := by
        by_contra hne
        have hbmem : b ∈ a :: t1 := hp.symm.subset (List.mem_cons_self b t2)
        have hamem : a ∈ b :: t2 := hp.subset (List.mem_cons_self a t1)
        have hbt1 : b ∈ t1 := by
          rcases List.mem_cons.mp hbmem with h | h
          · exact absurd h.symm hne
          · exact h
        have hat2 : a ∈ t2 := by
          rcases List.mem_cons.mp hamem with h | h
          · exact absurd h hne
          · exact h
        have h1 : le a b = true := (List.pairwise_cons.mp hs1).1 b hbt1
        have h2 : le b a = true := (List.pairwise_cons.mp hs2).1 a hat2
        have hk := anti a b h1 h2
        rw [List.map_cons] at hnd
        exact (List.nodup_cons.mp hnd).1 (by rw [hk]; exact List.mem_map_of_mem key hbt1)
      subst hab
      have hrest := ih t2 hp.cons_inv (List.pairwise_cons.mp hs1).2
        (List.pairwise_cons.mp hs2).2
        (by rw [List.map_cons] at hnd; exact (List.nodup_cons.mp hnd).2)
      rw [hrest]

/-- Core of the order-independence property: `calculate` sorts its input
by timestamp before doing anything else, so two inputs that are
permutations of each other and have pairwise distinct timestamps sort to
the same list and produce identical results. -/
theorem calculate_perm_eq (trades1 trades2 : List Trade) (prices : Prices)
    (hp : trades1.Perm trades2)
    (hnd : (trades1.map (fun t => t.date_time)).Nodup) :
    calculate trades1 prices = calculate trades2 prices := by
  have hperm : (sortByB tradeLeB trades1).Perm (sortByB tradeLeB trades2) :=
    ((sortByB_perm tradeLeB trades1).trans hp).trans (sortByB_perm tradeLeB trades2).symm
  have hnd1 : ((sortByB tradeLeB trades1).map (fun t => t.date_time)).Nodup :=
    (((sortByB_perm tradeLeB trades1).map (fun t => t.date_time)).nodup_iff).mpr hnd
  have heq := sorted_perm_eq_of_nodup_keys tradeLeB (fun t => t.date_time)
    tradeLeB_key_antisymm (sortByB tradeLeB trades1) (sortByB tradeLeB trades2) hperm
    (sortByB_pairwise tradeLeB tradeLeB_total tradeLeB_trans trades1)
    (sortByB_pairwise tradeLeB tradeLeB_total tradeLeB_trans trades2)
    hnd1
  simp only [calculate, heq]

/-- HMRC pooling example, acquisition 1: buy 100 BTC for 1000 GBP. -/
def hmrcAcq1 : Trade :=
  ⟨⟨⟨2016, 1, 1⟩, 0⟩, .Buy, ⟨100, BTC⟩, ⟨1000, GBP⟩, ⟨0, GBP⟩, 10, none⟩

/-- HMRC pooling example, acquisition 2: buy 50 BTC for 125000 GBP. -/
def hmrcAcq2 : Trade :=
  ⟨⟨⟨2017, 1, 1⟩, 0⟩, .Buy, ⟨50, BTC⟩, ⟨125000, GBP⟩, ⟨0, GBP⟩, 2500, none⟩

/-- HMRC pooling example, disposal: sell 50 BTC for 300000 GBP. -/
def hmrcDisp : Trade :=
  ⟨⟨⟨2018, 1, 1⟩, 0⟩, .Sell, ⟨300000, GBP⟩, ⟨50, BTC⟩, ⟨0, GBP⟩, 6000, none⟩

/-- The (proceeds, allowable costs, gain) totals of one tax year of a
successful run. -/
def gainsTotals (o : Outcome TaxReport) (y : Int) : Option (ℚ × ℚ × ℚ) :=
  match o with
  | .ok r => some ((r.gains (some y)).total_proceeds.amount,
      (r.gains (some y)).total_allowable_costs.amount,
      (r.gains (some y)).total_gain.amount)
  | _ => none

/-- An early buy that seeds the pool, outside the 30-day window. -/
def cxBuy0 : Trade :=
  ⟨⟨⟨2018, 1, 1⟩, 0⟩, .Buy, ⟨20, BTC⟩, ⟨1000, GBP⟩, ⟨0, GBP⟩, 50, none⟩

/-- A disposal of 5 BTC followed by two same-timestamp buys. -/
def cxSell : Trade :=
  ⟨⟨⟨2018, 6, 1⟩, 0⟩, .Sell, ⟨750, GBP⟩, ⟨5, BTC⟩, ⟨0, GBP⟩, 150, none⟩

/-- First of two buys sharing one timestamp, at rate 100. -/
def cxBuyA : Trade :=
  ⟨⟨⟨2018, 6, 10⟩, 0⟩, .Buy, ⟨10, BTC⟩, ⟨1000, GBP⟩, ⟨0, GBP⟩, 100, none⟩

/-- Second of two buys sharing one timestamp, at rate 200. -/
def cxBuyB : Trade :=
  ⟨⟨⟨2018, 6, 10⟩, 0⟩, .Buy, ⟨10, BTC⟩, ⟨2000, GBP⟩, ⟨0, GBP⟩, 200, none⟩

/-- C4 counterexample: two inputs that are permutations of each other but
contain two acquisitions with the same timestamp (and different rates).
The stable sort keeps the tied buys in their input order, the
bed-and-breakfast pass consumes the first of them, and the 2019 totals
differ (allowable costs 500 against 1000), so `calculate` is not
order-independent for arbitrary permutations. -/
theorem c4_order_independence_counterexample :
    ([cxBuy0, cxSell, cxBuyA, cxBuyB] : List Trade).Perm [cxBuy0, cxSell, cxBuyB, cxBuyA]
    ∧ gainsTotals (calculate [cxBuy0, cxSell, cxBuyA, cxBuyB] pricesEmpty) 2019 =
        some (3750, 500, 3250)
    ∧ gainsTotals (calculate [cxBuy0, cxSell, cxBuyB, cxBuyA] pricesEmpty) 2019 =
        some (3750, 1000, 2750) := by
  refine ⟨?_, ?_, ?_⟩
  · exact (List.Perm.swap cxBuyB cxBuyA []).append_left [cxBuy0, cxSell]
  · norm_num +decide [calculate, sortByB, insertSorted, tradeLeB, processTrades, processTrade,
      get_price, Prices.get, buyBranch, sellBranch, bnbPass, bnbCandidates, bnbStep, foldE,
      orInsert, lookupA, updateA, Pool.new, Pool.buy, Pool.sell, legValue,
      Price.convert_to_gbp, Money.add, Money.sub, zeroM, uk_tax_year, TaxReport.new,
      addDisposal, Trade.key, pricesEmpty, NDate.lt, NDate.le, NDateTime.le, NDateTime.lt,
      NDateTime.ts, daysFromCivil, GBP, BTC, TaxReport.gains, allDisposals, dispLeB,
      gainsTotals, Gains.total_proceeds, Gains.total_allowable_costs, Gains.total_gain,
      Disposal.proceeds, Disposal.gain, cxBuy0, cxSell, cxBuyA, cxBuyB]
  · norm_num +decide [calculate, sortByB, insertSorted, tradeLeB, processTrades, processTrade,
      get_price, Prices.get, buyBranch, sellBranch, bnbPass, bnbCandidates, bnbStep, foldE,
      orInsert, lookupA, updateA, Pool.new, Pool.buy, Pool.sell, legValue,
      Price.convert_to_gbp, Money.add, Money.sub, zeroM, uk_tax_year, TaxReport.new,
      addDisposal, Trade.key, pricesEmpty, NDate.lt, NDate.le, NDateTime.le, NDateTime.lt,
      NDateTime.ts, daysFromCivil, GBP, BTC, TaxReport.gains, allDisposals, dispLeB,
      gainsTotals, Gains.total_proceeds, Gains.total_allowable_costs, Gains.total_gain,
      Disposal.proceeds, Disposal.gain, cxBuy0, cxSell, cxBuyA, cxBuyB]

/-- C4 amended: `calculate` is order-independent for inputs whose
timestamps are pairwise distinct (the stable sort then determines one
sorted sequence, so the whole report — pools and per-year totals — is
identical for every permutation); timestamp ties can break this, see the
counterexample.  The literal HMRC pooling case has distinct timestamps,
so every input order yields 2018 totals of 300000 proceeds, 42000
allowable costs and 258000 gain. -/
theorem c4_order_independence :
    (∀ (trades1 trades2 : List Trade) (prices : Prices),
        trades1.Perm trades2 → (trades1.map (fun t => t.date_time)).Nodup →
        calculate trades1 prices = calculate trades2 prices)
    ∧ (∀ l : List Trade, l.Perm [hmrcAcq1, hmrcAcq2, hmrcDisp] →
        gainsTotals (calculate l pricesEmpty) 2018 = some (300000, 42000, 258000)) := by
  refine ⟨calculate_perm_eq, ?_⟩
  intro l hl
  have hnd : (l.map (fun t => t.date_time)).Nodup :=
    ((hl.map (fun t => t.date_time)).nodup_iff).mpr (by decide)
  rw [calculate_perm_eq l [hmrcAcq1, hmrcAcq2, hmrcDisp] pricesEmpty hl hnd]
  norm_num +decide [calculate, sortByB, insertSorted, tradeLeB, processTrades, processTrade,
    get_price, Prices.get, buyBranch, sellBranch, bnbPass, bnbCandidates, bnbStep, foldE,
    orInsert, lookupA, updateA, Pool.new, Pool.buy, Pool.sell, legValue,
    Price.convert_to_gbp, Money.add, Money.sub, zeroM, uk_tax_year, TaxReport.new,
    addDisposal, Trade.key, pricesEmpty, NDate.lt, NDate.le, NDateTime.le, NDateTime.lt,
    NDateTime.ts, daysFromCivil, GBP, BTC, TaxReport.gains, allDisposals, dispLeB,
    gainsTotals, Gains.total_proceeds, Gains.total_allowable_costs, Gains.total_gain,
    Disposal.proceeds, Disposal.gain, hmrcAcq1, hmrcAcq2, hmrcDisp]

theorem c4_order_independence_witness :
    calculate [hmrcAcq2, hmrcAcq1] pricesEmpty = calculate [hmrcAcq1, hmrcAcq2] pricesEmpty
    ∧ gainsTotals (calculate [hmrcDisp, hmrcAcq2, hmrcAcq1] pricesEmpty) 2018 =
        some (300000, 42000, 258000) :=
  ⟨c4_order_independence.1 [hmrcAcq2, hmrcAcq1] [hmrcAcq1, hmrcAcq2] pricesEmpty
      (List.Perm.swap hmrcAcq1 hmrcAcq2 []) (by decide),
   c4_order_independence.2 [hmrcDisp, hmrcAcq2, hmrcAcq1]
      (List.reverse_perm [hmrcAcq1, hmrcAcq2, hmrcDisp])⟩

/-- The disposals of one looked-up tax year, empty when absent. -/
def bucketOf (o : Option TaxYearRec) : List Disposal :=
  match o with
  | some ty => ty.disposals
  | none => []

theorem lookupA_addDisposal_self (m : List (Int × TaxYearRec)) (d : Disposal) :
    lookupA (addDisposal m d) d.tax_year =
      some (match lookupA m d.tax_year with
            | some ty => ⟨ty.year, ty.disposals ++ [d]⟩
            | none => ⟨d.tax_year, [d]⟩) := by
  induction m with
  | nil => simp [addDisposal, lookupA]
  | cons p rest ih =>
    obtain ⟨y, ty⟩ := p
    by_cases h : y = d.tax_year
    · subst h
      simp [addDisposal, lookupA]
    · simp only [addDisposal]
      rw [if_neg h]
      simp only [lookupA]
      rw [if_neg h, if_neg h]
      exact ih

theorem lookupA_addDisposal_ne (m : List (Int × TaxYearRec)) (d : Disposal) (y : Int)
    (h : y ≠ d.tax_year) :
    lookupA (addDisposal m d) y = lookupA m y := by
  induction m with
  | nil =>
    have hne : d.tax_year ≠ y := fun hh => h hh.symm
    simp [addDisposal, lookupA, hne]
  | cons p rest ih =>
    obtain ⟨k, ty⟩ := p
    by_cases hk : k = d.tax_year
    · subst hk
      simp only [addDisposal, if_pos rfl]
      simp only [lookupA]
      rw [if_neg (fun hh => h hh.symm), if_neg (fun hh => h hh.symm)]
    · simp only [addDisposal]
      rw [if_neg hk]
      simp only [lookupA]
      by_cases hky : k = y
      · rw [if_pos hky, if_pos hky]
      · rw [if_neg hky, if_neg hky]
        exact ih

theorem foldl_addDisposal_bucket (y : Int) :
    ∀ (ds : List Disposal) (acc : List (Int × TaxYearRec)),
      bucketOf (lookupA (ds.foldl addDisposal acc) y) =
        bucketOf (lookupA acc y) ++ ds.filter (fun d => decide (d.tax_year = y)) := by
  intro ds
  induction ds with
  | nil => intro acc; simp
  | cons d rest ih =>
    intro acc
    rw [List.foldl_cons, ih (addDisposal acc d)]
    by_cases h : d.tax_year = y
    · subst h
      rw [lookupA_addDisposal_self]
      have hb : bucketOf (some (match lookupA acc d.tax_year with
            | some ty => ⟨ty.year, ty.disposals ++ [d]⟩
            | none => ⟨d.tax_year, [d]⟩)) = bucketOf (lookupA acc d.tax_year) ++ [d] := by
        cases hl : lookupA acc d.tax_year with
        | some ty => simp [bucketOf]
        | none => simp [bucketOf]
      rw [hb]
      simp [List.filter_cons, List.append_assoc]
    · rw [lookupA_addDisposal_ne acc d y (fun hh => h hh.symm)]
      simp [List.filter_cons, h]

theorem foldl_addDisposal_none (y : Int) :
    ∀ (ds : List Disposal) (acc : List (Int × TaxYearRec)),
      (lookupA (ds.foldl addDisposal acc) y = none ↔
        lookupA acc y = none ∧ ds.filter (fun d => decide (d.tax_year = y)) = []) := by
  intro ds
  induction ds with
  | nil => intro acc; simp
  | cons d rest ih =>
    intro acc
    rw [List.foldl_cons, ih (addDisposal acc d)]
    by_cases h : d.tax_year = y
    · subst h
      rw [lookupA_addDisposal_self]
      simp [List.filter_cons]
    · rw [lookupA_addDisposal_ne acc d y (fun hh => h hh.symm)]
      simp [List.filter_cons, h]

theorem allDisposals_cons (p : Int × TaxYearRec) (rest : List (Int × TaxYearRec)) :
    allDisposals (p :: rest) = p.2.disposals ++ allDisposals rest := by
  simp [allDisposals]

theorem allDisposals_addDisposal (m : List (Int × TaxYearRec)) (d : Disposal) :
    (allDisposals (addDisposal m d)).Perm (allDisposals m ++ [d]) := by
  induction m with
  | nil => simp [addDisposal, allDisposals]
  | cons p rest ih =>
    obtain ⟨k, ty⟩ := p
    by_cases hk : k = d.tax_year
    · have hstep : addDisposal ((k, ty) :: rest) d =
          (k, ⟨ty.year, ty.disposals ++ [d]⟩) :: rest := by
        simp only [addDisposal]
        rw [if_pos hk]
      rw [hstep, allDisposals_cons, allDisposals_cons]
      rw [List.append_assoc, List.append_assoc]
      exact List.Perm.append_left ty.disposals List.perm_append_comm
    · have hstep : addDisposal ((k, ty) :: rest) d = (k, ty) :: addDisposal rest d := by
        simp only [addDisposal]
        rw [if_neg hk]
      rw [hstep, allDisposals_cons, allDisposals_cons, List.append_assoc]
      exact List.Perm.append_left ty.disposals ih

theorem foldl_allDisposals :
    ∀ (ds : List Disposal) (acc : List (Int × TaxYearRec)),
      (allDisposals (ds.foldl addDisposal acc)).Perm (allDisposals acc ++ ds) := by
  intro ds
  induction ds with
  | nil => intro acc; simp
  | cons d rest ih =>
    intro acc
    rw [List.foldl_cons]
    have h1 := ih (addDisposal acc d)
    have h2 := (allDisposals_addDisposal acc d).append_right rest
    have h3 : (allDisposals acc ++ [d]) ++ rest = allDisposals acc ++ (d :: rest) := by
      rw [List.append_assoc]
      rfl
    rw [← h3]
    exact h1.trans h2

theorem dispLeB_total (a b : Disposal) : dispLeB a b = true ∨ dispLeB b a = true := by
  simp only [dispLeB, decide_eq_true_eq]
  exact NDateTime.le_total a.trade.date_time b.trade.date_time

theorem dispLeB_trans (a b c : Disposal) :
    dispLeB a b = true → dispLeB b c = true → dispLeB a c = true := by
  simp only [dispLeB, decide_eq_true_eq]
  exact NDateTime.le_trans a.trade.date_time b.trade.date_time c.trade.date_time

/-- C7 amended: for a report built by `TaxReport::new`, `gains(Some(y))`
returns exactly the disposals whose tax year is `y` when the report has
disposals in that year; when it has none it falls back to the disposals of
all years (the `unwrap_or` branch), instead of an empty list; `gains(None)`
returns the disposals of all years; the returned list is always sorted
ascending by the underlying trade's timestamp. -/
theorem c7_gains (trades : List Trade) (ds : List Disposal)
    (pools : List (String × Pool)) (y : Int) :
    ((∃ d ∈ ds, d.tax_year = y) →
        (((TaxReport.new trades ds pools).gains (some y)).gains).Perm
          (ds.filter (fun d => decide (d.tax_year = y))))
    ∧ ((∀ d ∈ ds, d.tax_year ≠ y) →
        (((TaxReport.new trades ds pools).gains (some y)).gains).Perm ds)
    ∧ (((TaxReport.new trades ds pools).gains none).gains).Perm ds
    ∧ (∀ yo : Option Int,
        (((TaxReport.new trades ds pools).gains yo).gains).Pairwise
          (fun a b => dispLeB a b = true)) := by
  have hall : (allDisposals (ds.foldl addDisposal [])).Perm ds := by
    have := foldl_allDisposals ds []
    simpa [allDisposals] using this
  refine ⟨?_, ?_, ?_, ?_⟩
  · intro hex
    have hfil : ds.filter (fun d => decide (d.tax_year = y)) ≠ [] := by
      obtain ⟨d, hd, hdy⟩ := hex
      intro hnil
      have : d ∈ ds.filter (fun d => decide (d.tax_year = y)) :=
        List.mem_filter.mpr ⟨hd, by simp [hdy]⟩
      rw [hnil] at this
      cases this
    cases hl : lookupA (ds.foldl addDisposal []) y with
    | none =>
      have := (foldl_addDisposal_none y ds []).mp hl
      exact absurd this.2 hfil
    | some ty =>
      have hbucket := foldl_addDisposal_bucket y ds []
      rw [hl] at hbucket
      simp only [bucketOf, lookupA, List.nil_append] at hbucket
      simp only [TaxReport.new, TaxReport.gains, hl]
      rw [← hbucket]
      exact sortByB_perm dispLeB ty.disposals
  · intro hnone
    have hfil : ds.filter (fun d => decide (d.tax_year = y)) = [] := by
      rw [List.filter_eq_nil_iff]
      intro d hd
      simp [hnone d hd]
    have hl : lookupA (ds.foldl addDisposal []) y = none :=
      (foldl_addDisposal_none y ds []).mpr ⟨by simp [lookupA], hfil⟩
    simp only [TaxReport.new, TaxReport.gains, hl]
    exact (sortByB_perm dispLeB _).trans hall
  · simp only [TaxReport.new, TaxReport.gains]
    exact (sortByB_perm dispLeB _).trans hall
  · intro yo
    cases yo with
    | none =>
      simp only [TaxReport.new, TaxReport.gains]
      exact sortByB_pairwise dispLeB dispLeB_total dispLeB_trans _
    | some y2 =>
      simp only [TaxReport.new, TaxReport.gains]
      cases hl : lookupA (ds.foldl addDisposal []) y2 with
      | none => exact sortByB_pairwise dispLeB dispLeB_total dispLeB_trans _
      | some ty => exact sortByB_pairwise dispLeB dispLeB_total dispLeB_trans _

/-- A concrete disposal record in tax year 2018. -/
def cxDisposal : Disposal :=
  ⟨hmrcDisp, 2018, ⟨300000, GBP⟩, ⟨300000, GBP⟩, ⟨0, GBP⟩,
    ⟨⟨BTC, GBP⟩, hmrcDisp.date_time, 6000⟩, ⟨42000, GBP⟩, none, none⟩

/-- C7 counterexample: the claim says `gains(Some(y))` returns exactly the
disposals whose tax year is `y`; but on a report whose only disposal is in
2018, requesting 1999 returns that 2018 disposal (the `unwrap_or` branch
falls back to all years when the requested year is absent) instead of the
empty list. -/
theorem c7_gains_counterexample :
    cxDisposal.tax_year = 2018
    ∧ ((TaxReport.new [] [cxDisposal] []).gains (some 1999)).gains = [cxDisposal] := by
  constructor
  · rfl
  · rfl

theorem c7_gains_witness :
    ((((TaxReport.new [] [cxDisposal] []).gains (some 2018)).gains).Perm
      ([cxDisposal].filter (fun d => decide (d.tax_year = 2018))))
    ∧ (((TaxReport.new [] [cxDisposal] []).gains none).gains).Perm [cxDisposal] :=
  ⟨(c7_gains [] [cxDisposal] [] 2018).1 ⟨cxDisposal, by simp, rfl⟩,
   (c7_gains [] [cxDisposal] [] 2018).2.2.1⟩
